import Mathlib

/-!
Verification of the CT-desk streaming core (chunk cache, session pool,
chunk fetcher, prefetch engine, range server).  The definitions below are
a shallow embedding of the JavaScript source in
src/main/security/validators.js; each definition names the source
function it embeds.  Machine integers are modelled as Nat or Int
(JavaScript numbers stay far below 2^53 here), byte buffers as List Nat,
and JavaScript strings as List Char.
-/

set_option autoImplicit false

/-- Tunable CHUNK_SIZE from the source: 1024 * 1024 bytes per chunk. -/
def CHUNK_SIZE : Nat := 1024 * 1024

/-- Tunable CLIENT_POOL_SIZE from the source: 3 sessions. -/
def CLIENT_POOL_SIZE : Nat := 3

/-- Tunable SEEK_PREBUF_CHUNKS from the source: 10 chunks per seek burst. -/
def SEEK_PREBUF_CHUNKS : Nat := 10

/-- Tunable CACHE_MAX_BYTES from the source: 700 * 1024 * 1024 bytes. -/
def CACHE_MAX_BYTES : Nat := 700 * 1024 * 1024

/-- Tunable MAX_CONSECUTIVE_FAILURES from the source: 5. -/
def MAX_CONSECUTIVE_FAILURES : Nat := 5

/-- MAX_RETRIES constant local to _downloadChunkImpl: 4 attempts. -/
def MAX_RETRIES : Nat := 4

-- ── Chunk cache (class ChunkCache) ──────────────────────────────────────

/-- One cache state: the JavaScript Map is a list of key-value pairs in
insertion order, oldest first, exactly the iteration order of a Map. -/
structure ChunkCacheSt where
  maxBytes : Nat
  usedBytes : Nat
  entries : List (List Char × List Nat)
  deriving Repr, DecidableEq

/-- Total byte size of the stored values of an entry list. -/
def bytesOf (m : List (List Char × List Nat)) : Nat :=
  (m.map (fun e => e.2.length)).sum

/-- Lookup of the value stored under a key (Map.get). -/
def findVal : List (List Char × List Nat) → List Char → Option (List Nat)
  | [], _ => none
  | e :: r, key => if e.1 = key then some e.2 else findVal r key

/-- Removal of the entry stored under a key (Map.delete). -/
def eraseVal : List (List Char × List Nat) → List Char → List (List Char × List Nat)
  | [], _ => []
  | e :: r, key => if e.1 = key then r else e :: eraseVal r key

/-- ChunkCache.get: return the stored bytes and promote the key to the
most-recent position by deleting and re-inserting it; null on absence. -/
def cacheGet (c : ChunkCacheSt) (key : List Char) : Option (List Nat) × ChunkCacheSt :=
  match findVal c.entries key with
  | none => (none, c)
  | some v => (some v, { c with entries := eraseVal c.entries key ++ [(key, v)] })

/-- The while loop of ChunkCache.set: evict oldest entries while the new
value would push usedBytes past maxBytes and the map is nonempty. -/
def evictLoop (maxB need : Nat) : List (List Char × List Nat) → Nat →
    List (List Char × List Nat) × Nat
  | [], used => ([], used)
  | e :: rest, used =>
    if maxB < used + need then evictLoop maxB need rest (used - e.2.length)
    else (e :: rest, used)

/-- First phase of ChunkCache.set: if the key already exists, reclaim
its prior size and delete it. -/
def reclaimOld (c : ChunkCacheSt) (key : List Char) : ChunkCacheSt :=
  match findVal c.entries key with
  | some old =>
    { c with usedBytes := c.usedBytes - old.length, entries := eraseVal c.entries key }
  | none => c

/-- ChunkCache.set: reclaim a previous entry under the same key, evict
oldest entries until the new value fits, then append it. -/
def cacheSet (c : ChunkCacheSt) (key : List Char) (v : List Nat) : ChunkCacheSt :=
  { maxBytes := (reclaimOld c key).maxBytes
    usedBytes :=
      (evictLoop (reclaimOld c key).maxBytes v.length (reclaimOld c key).entries
        (reclaimOld c key).usedBytes).2 + v.length
    entries :=
      (evictLoop (reclaimOld c key).maxBytes v.length (reclaimOld c key).entries
        (reclaimOld c key).usedBytes).1 ++ [(key, v)] }

/-- ChunkCache.has. -/
def cacheHas (c : ChunkCacheSt) (key : List Char) : Bool :=
  (findVal c.entries key).isSome

/-- ChunkCache.clear. -/
def cacheClear (c : ChunkCacheSt) : ChunkCacheSt :=
  { c with entries := [], usedBytes := 0 }

/-- ChunkCache.deletePrefix: drop every entry whose key starts with the
argument and subtract the freed bytes from usedBytes. -/
def cacheDeletePfx (c : ChunkCacheSt) (p : List Char) : ChunkCacheSt :=
  { c with
    entries := c.entries.filter (fun e => !(p.isPrefixOf e.1)),
    usedBytes := c.usedBytes - bytesOf (c.entries.filter (fun e => p.isPrefixOf e.1)) }

/-- A freshly constructed ChunkCache(maxBytes). -/
def emptyCache (maxB : Nat) : ChunkCacheSt := ⟨maxB, 0, []⟩

-- ── Basic cache lemmas ─────────────────────────────────────────────────

theorem findVal_eq_some_bytesOf {l : List (List Char × List Nat)} {k : List Char}
    {v : List Nat} (h : findVal l k = some v) :
    bytesOf l = v.length + bytesOf (eraseVal l k) := by
  induction l with
  | nil => simp [findVal] at h
  | cons e r ih =>
    by_cases hk : e.1 = k
    · simp [findVal, hk] at h
      simp [eraseVal, hk, bytesOf, h]
    · simp [findVal, hk] at h
      have := ih h
      simp [eraseVal, hk, bytesOf] at this ⊢
      omega

theorem evictLoop_spec (maxB need : Nat) :
    ∀ (l : List (List Char × List Nat)) (used : Nat), used = bytesOf l →
      (evictLoop maxB need l used).2 = bytesOf (evictLoop maxB need l used).1 ∧
      ((evictLoop maxB need l used).2 + need ≤ maxB ∨ (evictLoop maxB need l used).1 = []) := by
  intro l
  induction l with
  | nil =>
    intro used hu
    simp [evictLoop, bytesOf] at hu ⊢
    omega
  | cons e rest ih =>
    intro used hu
    by_cases hcond : maxB < used + need
    · have hrest : used - e.2.length = bytesOf rest := by
        simp [bytesOf] at hu ⊢
        omega
      have := ih (used - e.2.length) hrest
      simpa [evictLoop, hcond] using this
    · have hle : used + need ≤ maxB := by omega
      simp only [evictLoop, if_neg hcond]
      exact ⟨hu, Or.inl hle⟩

/-- Eviction removes a front segment of the recency list: the survivors
are a suffix, so the oldest entries go first. -/
theorem evictLoop_drop (maxB need : Nat) :
    ∀ (l : List (List Char × List Nat)) (used : Nat),
      ∃ j, (evictLoop maxB need l used).1 = l.drop j := by
  intro l
  induction l with
  | nil => intro used; exact ⟨0, rfl⟩
  | cons e rest ih =>
    intro used
    by_cases hcond : maxB < used + need
    · obtain ⟨j, hj⟩ := ih (used - e.2.length)
      exact ⟨j + 1, by simpa [evictLoop, hcond] using hj⟩
    · exact ⟨0, by simp [evictLoop, hcond]⟩

-- ── Operation sequences over the cache (for the budget invariant) ──────

/-- One observable cache operation, as issued by the fetcher, the range
server and stopStream. -/
inductive CacheOp where
  | ins (key : List Char) (v : List Nat)
  | get (key : List Char)
  | delPfx (p : List Char)
  | clr
  deriving Repr, DecidableEq

/-- Apply one operation (get is used for its promotion side effect). -/
def applyOp (c : ChunkCacheSt) : CacheOp → ChunkCacheSt
  | CacheOp.ins key v => cacheSet c key v
  | CacheOp.get key => (cacheGet c key).2
  | CacheOp.delPfx p => cacheDeletePfx c p
  | CacheOp.clr => cacheClear c

/-- Run a sequence of operations. -/
def runOps (c : ChunkCacheSt) (ops : List CacheOp) : ChunkCacheSt :=
  ops.foldl applyOp c

theorem bytesOf_append (a b : List (List Char × List Nat)) :
    bytesOf (a ++ b) = bytesOf a + bytesOf b := by
  simp [bytesOf]

theorem bytesOf_filter_add (P : (List Char × List Nat) → Bool)
    (l : List (List Char × List Nat)) :
    bytesOf (l.filter P) + bytesOf (l.filter (fun e => !(P e))) = bytesOf l := by
  induction l with
  | nil => simp [bytesOf]
  | cons e r ih =>
    by_cases h : P e <;> simp [List.filter, h, bytesOf] at ih ⊢ <;> omega

/-- The consistency and budget invariant carried through op sequences. -/
def CacheInv (c : ChunkCacheSt) : Prop :=
  c.usedBytes = bytesOf c.entries ∧ c.usedBytes ≤ c.maxBytes

theorem bytesOf_single (e : List Char × List Nat) :
    bytesOf [e] = e.2.length := by
  simp [bytesOf]

theorem reclaimOld_maxBytes (c : ChunkCacheSt) (key : List Char) :
    (reclaimOld c key).maxBytes = c.maxBytes := by
  simp only [reclaimOld]
  cases findVal c.entries key <;> rfl

theorem reclaimOld_cons {c : ChunkCacheSt} (key : List Char)
    (hcons : c.usedBytes = bytesOf c.entries) :
    (reclaimOld c key).usedBytes = bytesOf (reclaimOld c key).entries := by
  simp only [reclaimOld]
  cases hfind : findVal c.entries key with
  | none => exact hcons
  | some old =>
    have := findVal_eq_some_bytesOf hfind
    simp only []
    omega

theorem applyOp_maxBytes (c : ChunkCacheSt) (op : CacheOp) :
    (applyOp c op).maxBytes = c.maxBytes := by
  cases op with
  | ins key v => exact reclaimOld_maxBytes c key
  | get key =>
    simp only [applyOp, cacheGet]
    cases findVal c.entries key <;> rfl
  | delPfx p => rfl
  | clr => rfl

theorem cacheSet_inv {c : ChunkCacheSt} (key : List Char) (v : List Nat)
    (hinv : CacheInv c) (hsz : v.length ≤ c.maxBytes) :
    CacheInv (cacheSet c key v) := by
  obtain ⟨hcons, hbud⟩ := hinv
  have hmax := reclaimOld_maxBytes c key
  have hc1 := reclaimOld_cons key hcons
  have hev := evictLoop_spec (reclaimOld c key).maxBytes v.length
    (reclaimOld c key).entries (reclaimOld c key).usedBytes hc1
  constructor
  · simp only [cacheSet, bytesOf_append, bytesOf_single]
    omega
  · simp only [cacheSet]
    rcases hev.2 with h | h
    · exact h
    · have hz : (evictLoop (reclaimOld c key).maxBytes v.length (reclaimOld c key).entries
          (reclaimOld c key).usedBytes).2 = 0 := by
        rw [hev.1, h]; rfl
      rw [hz, hmax]
      omega

theorem cacheGet_inv {c : ChunkCacheSt} (key : List Char) (hinv : CacheInv c) :
    CacheInv (cacheGet c key).2 := by
  obtain ⟨hcons, hbud⟩ := hinv
  simp only [cacheGet]
  cases hfind : findVal c.entries key with
  | none => exact ⟨hcons, hbud⟩
  | some v =>
    have := findVal_eq_some_bytesOf hfind
    constructor
    · simp only [bytesOf_append, bytesOf_single]
      omega
    · exact hbud

theorem cacheDeletePfx_inv {c : ChunkCacheSt} (p : List Char) (hinv : CacheInv c) :
    CacheInv (cacheDeletePfx c p) := by
  obtain ⟨hcons, hbud⟩ := hinv
  have hsplit := bytesOf_filter_add (fun e => p.isPrefixOf e.1) c.entries
  constructor
  · simp only [cacheDeletePfx]
    omega
  · simp only [cacheDeletePfx]
    omega

theorem runOps_inv (ops : List CacheOp) :
    ∀ (c : ChunkCacheSt), CacheInv c →
      (∀ k v, CacheOp.ins k v ∈ ops → v.length ≤ c.maxBytes) →
      CacheInv (runOps c ops) := by
  induction ops with
  | nil => intro c h _; exact h
  | cons op rest ih =>
    intro c hinv hsz
    have hstep : CacheInv (applyOp c op) := by
      cases op with
      | ins key v =>
        exact cacheSet_inv key v hinv (hsz key v (by simp))
      | get key => exact cacheGet_inv key hinv
      | delPfx p => exact cacheDeletePfx_inv p hinv
      | clr => exact ⟨rfl, Nat.zero_le _⟩
    have hmax := applyOp_maxBytes c op
    exact ih (applyOp c op) hstep (fun k v hm => by
      rw [hmax]; exact hsz k v (List.mem_cons_of_mem _ hm))

-- ── Prefix deletion lemmas ─────────────────────────────────────────────

theorem isPrefixOf_append_self (p t : List Char) : p.isPrefixOf (p ++ t) = true := by
  induction p with
  | nil => simp [List.isPrefixOf]
  | cons a r ih => simp [List.isPrefixOf, ih]

theorem findVal_filter_not_pfx (p t : List Char) :
    ∀ l : List (List Char × List Nat),
      findVal (l.filter (fun e => !(p.isPrefixOf e.1))) (p ++ t) = none := by
  intro l
  induction l with
  | nil => rfl
  | cons e r ih =>
    by_cases h : p.isPrefixOf e.1
    · simpa [List.filter, h] using ih
    · have hne : e.1 ≠ p ++ t := by
        intro heq
        rw [heq, isPrefixOf_append_self] at h
        exact h rfl
      simpa [List.filter, h, findVal, hne] using ih

/-- After deletePrefix, no key extending the prefix remains cached. -/
theorem cacheHas_deletePfx (c : ChunkCacheSt) (p t : List Char) :
    cacheHas (cacheDeletePfx c p) (p ++ t) = false := by
  simp [cacheHas, cacheDeletePfx, findVal_filter_not_pfx]

-- ── LRU order lemmas ───────────────────────────────────────────────────

/-- Insert a batch of entries in order (repeated ChunkCache.set). -/
def insertAll (c : ChunkCacheSt) (l : List (List Char × List Nat)) : ChunkCacheSt :=
  l.foldl (fun acc e => cacheSet acc e.1 e.2) c

theorem findVal_of_not_mem_keys {l : List (List Char × List Nat)} {k : List Char}
    (h : k ∉ l.map Prod.fst) : findVal l k = none := by
  induction l with
  | nil => rfl
  | cons e r ih =>
    simp only [List.map_cons, List.mem_cons] at h
    push_neg at h
    have h1 : ¬ e.1 = k := fun heq => h.1 heq.symm
    simp [findVal, h1, ih h.2]

theorem evictLoop_no_pressure {maxB need : Nat} {l : List (List Char × List Nat)}
    {used : Nat} (h : used + need ≤ maxB) : evictLoop maxB need l used = (l, used) := by
  cases l with
  | nil => rfl
  | cons e rest => simp [evictLoop, Nat.not_lt.mpr h]

/-- Fresh inserts that fit the budget line up in insertion order behind
the existing entries, with no eviction. -/
theorem insertAll_fresh :
    ∀ (l : List (List Char × List Nat)) (c : ChunkCacheSt),
      c.usedBytes = bytesOf c.entries →
      ((c.entries.map Prod.fst ++ l.map Prod.fst).Nodup) →
      c.usedBytes + bytesOf l ≤ c.maxBytes →
      (insertAll c l).entries = c.entries ++ l ∧
        (insertAll c l).usedBytes = c.usedBytes + bytesOf l ∧
        (insertAll c l).maxBytes = c.maxBytes := by
  intro l
  induction l with
  | nil =>
    intro c hcons _ _
    exact ⟨(List.append_nil _).symm, by simp [insertAll, bytesOf], rfl⟩
  | cons e rest ih =>
    intro c hcons hnodup hfit
    have hkey : e.1 ∉ c.entries.map Prod.fst := by
      rcases List.nodup_append.mp hnodup with ⟨_, _, hdisj⟩
      intro hmem
      exact hdisj hmem (by simp)
    have hfind : findVal c.entries e.1 = none := findVal_of_not_mem_keys hkey
    have hbytes : bytesOf (e :: rest) = e.2.length + bytesOf rest := by
      simp [bytesOf]
    have hreclaim : reclaimOld c e.1 = c := by
      simp [reclaimOld, hfind]
    have hnopress : evictLoop c.maxBytes e.2.length c.entries c.usedBytes =
        (c.entries, c.usedBytes) := by
      apply evictLoop_no_pressure
      omega
    have hstep : cacheSet c e.1 e.2 =
        ⟨c.maxBytes, c.usedBytes + e.2.length, c.entries ++ [(e.1, e.2)]⟩ := by
      simp [cacheSet, hreclaim, hnopress]
    have hc' : (insertAll c (e :: rest)) = insertAll (cacheSet c e.1 e.2) rest := rfl
    rw [hc', hstep]
    have hres := ih ⟨c.maxBytes, c.usedBytes + e.2.length, c.entries ++ [(e.1, e.2)]⟩
      (by simp [bytesOf_append, bytesOf_single, hcons])
      (by simpa using hnodup)
      (by simp only []; omega)
    refine ⟨?_, ?_, hres.2.2⟩
    · rw [hres.1]; simp
    · rw [hres.2.1]; simp only []; omega

-- ── Session pool (ensureClientPool, createClientWithSession) ───────────
--
-- The transport is modelled as a deterministic mock that always connects
-- and whose getMe liveness probe succeeds exactly on sessions accepted by
-- the predicate valid.  createClientWithSession with a nonempty session
-- string only connects (no auth RPC); with an empty one it performs the
-- authentication exchange, counted in authCount.  No FloodWait occurs in
-- the mock, so the single auth attempt succeeds.

/-- One gramjs client of the pool: its session string and connected flag. -/
structure TClient where
  sess : List Char
  connected : Bool
  deriving Repr, DecidableEq

/-- Process-wide pool state: clientPool, the persisted session file and
the count of authentication exchanges observed by the mock transport. -/
structure PoolSt where
  pool : List TClient
  saved : Option (List Char)
  authCount : Nat
  deriving Repr, DecidableEq

/-- The session string produced by a fresh authentication in the mock. -/
def freshSess : List Char := ['F']

/-- createClientWithSession with a nonempty session string: connect only,
no authentication RPC. -/
def mkClient (s : List Char) : TClient := ⟨s, true⟩

/-- The clone loop of ensureClientPool: raise the pool to
CLIENT_POOL_SIZE by replaying the master session into siblings. -/
def clonesFill (st : PoolSt) (master : List Char) : PoolSt :=
  { st with pool := st.pool ++ List.replicate (CLIENT_POOL_SIZE - st.pool.length) (mkClient master) }

/-- The fresh-authentication branch of ensureClientPool: authenticate
once (authCount + 1), persist the session, then clone it. -/
def authFresh (st : PoolSt) : PoolSt :=
  clonesFill { pool := [mkClient freshSess], saved := some freshSess,
               authCount := st.authCount + 1 } freshSess

/-- ensureClientPool: return early when enough clients are connected;
otherwise reuse the saved session when the liveness probe accepts it,
else authenticate once; finally clone into the remaining slots. -/
def ensurePool (valid : List Char → Bool) (st : PoolSt) : PoolSt :=
  if CLIENT_POOL_SIZE ≤ (st.pool.filter (fun c => c.connected)).length then st
  else
    match st.saved with
    | some s =>
      if valid s then clonesFill { st with pool := [mkClient s] } s
      else authFresh { st with saved := none }
    | none => authFresh st

/-- Iterate ensureClientPool n times (a sequence of calls in one run). -/
def ensureN (valid : List Char → Bool) (st : PoolSt) : Nat → PoolSt
  | 0 => st
  | n + 1 => ensureN valid (ensurePool valid st) n

theorem clonesFill_pool (st : PoolSt) (master : List Char) :
    (clonesFill st master).pool =
      st.pool ++ List.replicate (CLIENT_POOL_SIZE - st.pool.length) (mkClient master) := rfl

/-- A full healthy pool makes ensureClientPool a no-op. -/
theorem ensurePool_stable (valid : List Char → Bool) (st : PoolSt)
    (hfull : CLIENT_POOL_SIZE ≤ (st.pool.filter (fun c => c.connected)).length) :
    ensurePool valid st = st := by
  simp [ensurePool, hfull]

/-- Shape of a healthy pool: 3 connected clients all replaying the
persisted master session. -/
def PoolReady (st : PoolSt) : Prop :=
  ∃ m, st.saved = some m ∧ st.pool = List.replicate CLIENT_POOL_SIZE (mkClient m)

theorem poolReady_filter {st : PoolSt} (h : PoolReady st) :
    CLIENT_POOL_SIZE ≤ (st.pool.filter (fun c => c.connected)).length := by
  obtain ⟨m, _, hpool⟩ := h
  rw [hpool]
  simp [mkClient, List.filter_replicate]

theorem clonesFill_single (m : List Char) (saved : Option (List Char)) (a : Nat) :
    clonesFill ⟨[mkClient m], saved, a⟩ m =
      ⟨List.replicate CLIENT_POOL_SIZE (mkClient m), saved, a⟩ := by
  simp [clonesFill, CLIENT_POOL_SIZE, List.replicate]

theorem authFresh_eq (st : PoolSt) :
    authFresh st =
      ⟨List.replicate CLIENT_POOL_SIZE (mkClient freshSess), some freshSess,
        st.authCount + 1⟩ := by
  unfold authFresh
  rw [clonesFill_single]

/-- The first ensureClientPool call from a cold process: it fills the
pool, and the authentication count is bumped exactly when no valid
persisted session was available. -/
theorem ensurePool_cold (valid : List Char → Bool) (st : PoolSt)
    (hpool : st.pool = []) :
    PoolReady (ensurePool valid st) ∧
      (ensurePool valid st).authCount =
        (match st.saved with
         | some s => if valid s then st.authCount else st.authCount + 1
         | none => st.authCount + 1) := by
  have hempty : ¬ CLIENT_POOL_SIZE ≤ ((st.pool.filter (fun c => c.connected)).length) := by
    rw [hpool]
    simp [CLIENT_POOL_SIZE]
  cases hsaved : st.saved with
  | some s =>
    by_cases hv : valid s
    · have heq : ensurePool valid st =
          ⟨List.replicate CLIENT_POOL_SIZE (mkClient s), some s, st.authCount⟩ := by
        simp only [ensurePool, if_neg hempty, hsaved, if_pos hv]
        rw [clonesFill_single]
      rw [heq]
      exact ⟨⟨s, rfl, rfl⟩, by simp [hsaved, hv]⟩
    · have heq : ensurePool valid st =
          ⟨List.replicate CLIENT_POOL_SIZE (mkClient freshSess), some freshSess,
            st.authCount + 1⟩ := by
        simp only [ensurePool, if_neg hempty, hsaved, if_neg hv]
        rw [authFresh_eq]
      rw [heq]
      exact ⟨⟨freshSess, rfl, rfl⟩, by simp [hsaved, hv]⟩
  | none =>
    have heq : ensurePool valid st =
        ⟨List.replicate CLIENT_POOL_SIZE (mkClient freshSess), some freshSess,
          st.authCount + 1⟩ := by
      simp only [ensurePool, if_neg hempty, hsaved]
      rw [authFresh_eq]
    rw [heq]
    exact ⟨⟨freshSess, rfl, rfl⟩, by simp [hsaved]⟩

theorem ensureN_of_ready (valid : List Char → Bool) :
    ∀ (n : Nat) (st : PoolSt), PoolReady st → ensureN valid st n = st := by
  intro n
  induction n with
  | zero => intro st _; rfl
  | succ k ih =>
    intro st hready
    have hstable := ensurePool_stable valid st (poolReady_filter hready)
    simp [ensureN, hstable, ih st hready]

-- ── In-flight deduplication (downloadChunk entry section) ──────────────
--
-- In downloadChunk the cache probe, the inFlight probe and the inFlight
-- registration happen with no await between them, so on the single
-- JavaScript thread the whole entry section of one call is atomic.  A
-- cache-miss episode for a key is the interval during which the key
-- stays registered (until the finally clause removes it).  Each call is
-- therefore one atomic arrival event against the episode state below.

/-- Episode state for one key: whether an in-flight promise is
registered, how many underlying fetches were started, and the identifier
of the promise currently registered. -/
structure EpSt where
  registered : Bool
  fetches : Nat
  curPid : Nat
  deriving Repr, DecidableEq

/-- What one downloadChunk arrival does and which completion it returns:
return the cached bytes, await the registered promise, or register a new
promise (one underlying fetch) and await it. -/
inductive FetchAct where
  | hitCache
  | joins (pid : Nat)
  | starts (pid : Nat)
  deriving Repr, DecidableEq

/-- One arrival of downloadChunk for the key, given whether the cache
currently holds a nonempty buffer for it. -/
def dcArrive (cachedNonempty : Bool) (st : EpSt) : EpSt × FetchAct :=
  if cachedNonempty then (st, FetchAct.hitCache)
  else if st.registered then (st, FetchAct.joins st.curPid)
  else ({ registered := true, fetches := st.fetches + 1, curPid := st.fetches + 1 },
        FetchAct.starts (st.fetches + 1))

/-- Run a sequence of arrivals (the cache flag observed by each). -/
def runArrivals (st : EpSt) : List Bool → EpSt × List FetchAct
  | [] => (st, [])
  | c :: rest =>
    ((runArrivals (dcArrive c st).1 rest).1,
      (dcArrive c st).2 :: (runArrivals (dcArrive c st).1 rest).2)

theorem runArrivals_registered (rest : List Bool) (f p : Nat) :
    (∀ b ∈ rest, b = false) →
    runArrivals ⟨true, f, p⟩ rest =
      (⟨true, f, p⟩, List.replicate rest.length (FetchAct.joins p)) := by
  induction rest with
  | nil => intro _; rfl
  | cons b r ih =>
    intro hall
    have hb : b = false := hall b (by simp)
    have hr := ih (fun x hx => hall x (List.mem_cons_of_mem _ hx))
    simp [runArrivals, dcArrive, hb, hr, List.replicate]

-- ── Chunk fetch retries (_downloadChunkImpl) ───────────────────────────
--
-- The oracle gives the outcome of the remote interaction of each
-- attempt: a buffer (possibly empty, when iterDownload yields nothing
-- usable) or a thrown error (covering both a failed reconnect and a
-- download exception).

/-- Outcome of one attempt of the retry loop. -/
inductive AttRes where
  | bytes (b : List Nat)
  | threw
  deriving Repr, DecidableEq

/-- Observable events of _downloadChunkImpl: which pool slot the attempt
acquires, backoff sleeps in milliseconds, and the cache insertion. -/
inductive FEv where
  | acquire (i : Nat)
  | sleep (ms : Nat)
  | cacheIns
  deriving Repr, DecidableEq

/-- The retry loop of _downloadChunkImpl for attempts t..MAX_RETRIES:
attempt t acquires clientPool[(chunkIndex + t - 1) % poolSize]; a
nonempty buffer is stored and returned at once; after a thrown error
before the last attempt the loop sleeps 200 * 2 ^ (t - 1) ms; an empty
buffer moves straight to the next attempt with no sleep. -/
def attLoop (oracle : Nat → AttRes) (ps ci : Nat) (t : Nat) :
    Option (List Nat) × List FEv :=
  if _h : MAX_RETRIES < t then (none, [])
  else
    match oracle t with
    | AttRes.bytes b =>
      if b.length = 0 then
        ((attLoop oracle ps ci (t + 1)).1,
          FEv.acquire ((ci + t - 1) % ps) :: (attLoop oracle ps ci (t + 1)).2)
      else
        (some b, [FEv.acquire ((ci + t - 1) % ps), FEv.cacheIns])
    | AttRes.threw =>
      if t = MAX_RETRIES then (none, [FEv.acquire ((ci + t - 1) % ps)])
      else
        ((attLoop oracle ps ci (t + 1)).1,
          FEv.acquire ((ci + t - 1) % ps) :: FEv.sleep (200 * 2 ^ (t - 1)) ::
            (attLoop oracle ps ci (t + 1)).2)
  termination_by MAX_RETRIES + 1 - t
  decreasing_by all_goals { simp [MAX_RETRIES] at *; omega }

/-- _downloadChunkImpl: offsets at or past fileSize return an empty
buffer immediately; otherwise the retry loop runs from attempt 1. -/
def dImpl (oracle : Nat → AttRes) (ps ci fileSize : Nat) :
    Option (List Nat) × List FEv :=
  if fileSize ≤ ci * CHUNK_SIZE then (some [], [])
  else attLoop oracle ps ci 1

/-- The downloadChunk wrapper around _downloadChunkImpl: the key is
registered in the in-flight map for the duration of the call and removed
in the finally clause, in every outcome. -/
def dWrapReg (reg : List Char → Bool) (key : List Char) : Bool → (List Char → Bool)
  | _ => fun k => if k = key then false else reg k

theorem dWrapReg_removed (reg : List Char → Bool) (key : List Char) (outcome : Bool) :
    dWrapReg reg key outcome key = false := by
  simp [dWrapReg]

/-- The pool indices acquired, in order, by the retry loop events. -/
def acqIdxs (evs : List FEv) : List Nat :=
  evs.filterMap (fun e => match e with | FEv.acquire i => some i | _ => none)

@[simp] theorem acqIdxs_nil : acqIdxs [] = [] := rfl

@[simp] theorem acqIdxs_acquire (i : Nat) (l : List FEv) :
    acqIdxs (FEv.acquire i :: l) = i :: acqIdxs l := rfl

@[simp] theorem acqIdxs_sleep (d : Nat) (l : List FEv) :
    acqIdxs (FEv.sleep d :: l) = acqIdxs l := rfl

@[simp] theorem acqIdxs_cacheIns (l : List FEv) :
    acqIdxs (FEv.cacheIns :: l) = acqIdxs l := rfl

theorem attLoop_acq_len (oracle : Nat → AttRes) (ps ci : Nat) :
    ∀ k t, MAX_RETRIES + 1 ≤ t + k →
      (acqIdxs (attLoop oracle ps ci t).2).length ≤ MAX_RETRIES + 1 - t := by
  intro k
  induction k with
  | zero =>
    intro t ht
    have hgt : MAX_RETRIES < t := by omega
    rw [attLoop]
    simp [hgt]
  | succ k ih =>
    intro t ht
    by_cases hgt : MAX_RETRIES < t
    · rw [attLoop]; simp [hgt]
    · rw [attLoop]
      simp only [dif_neg hgt]
      cases horacle : oracle t with
      | bytes b =>
        by_cases hb : b.length = 0
        · have := ih (t + 1) (by omega)
          simp only [if_pos hb, acqIdxs_acquire, List.length_cons]
          omega
        · simp only [if_neg hb]
          simp
          omega
      | threw =>
        by_cases ht4 : t = MAX_RETRIES
        · simp [ht4, MAX_RETRIES]
        · have := ih (t + 1) (by omega)
          simp only [if_neg ht4, acqIdxs_acquire, acqIdxs_sleep, List.length_cons]
          omega

theorem attLoop_acq_rotation (oracle : Nat → AttRes) (ps ci : Nat) :
    ∀ k t, MAX_RETRIES + 1 ≤ t + k →
      acqIdxs (attLoop oracle ps ci t).2 =
        (List.range' t (acqIdxs (attLoop oracle ps ci t).2).length).map
          (fun u => (ci + u - 1) % ps) := by
  intro k
  induction k with
  | zero =>
    intro t ht
    have hgt : MAX_RETRIES < t := by omega
    rw [attLoop]
    simp [hgt]
  | succ k ih =>
    intro t ht
    by_cases hgt : MAX_RETRIES < t
    · rw [attLoop]; simp [hgt]
    · rw [attLoop]
      simp only [dif_neg hgt]
      cases horacle : oracle t with
      | bytes b =>
        by_cases hb : b.length = 0
        · have := ih (t + 1) (by omega)
          simp only [if_pos hb, acqIdxs_acquire, List.length_cons, List.range'_succ,
            List.map_cons]
          rw [this]
          simp
        · simp only [if_neg hb]
          simp [List.range'_succ]
      | threw =>
        by_cases ht4 : t = MAX_RETRIES
        · simp [ht4, List.range'_succ]
        · have := ih (t + 1) (by omega)
          simp only [if_neg ht4, acqIdxs_acquire, acqIdxs_sleep, List.length_cons,
            List.range'_succ, List.map_cons]
          rw [this]
          simp

theorem attLoop_success (oracle : Nat → AttRes) (ps ci : Nat) :
    ∀ k t b, MAX_RETRIES + 1 ≤ t + k →
      (attLoop oracle ps ci t).1 = some b →
      b.length ≠ 0 ∧ (∃ u, t ≤ u ∧ u ≤ MAX_RETRIES ∧ oracle u = AttRes.bytes b) ∧
        FEv.cacheIns ∈ (attLoop oracle ps ci t).2 := by
  intro k
  induction k with
  | zero =>
    intro t b ht hres
    have hgt : MAX_RETRIES < t := by omega
    rw [attLoop] at hres
    simp [hgt] at hres
  | succ k ih =>
    intro t b ht hres
    by_cases hgt : MAX_RETRIES < t
    · rw [attLoop] at hres; simp [hgt] at hres
    · rw [attLoop] at hres ⊢
      simp only [dif_neg hgt] at hres ⊢
      cases horacle : oracle t with
      | bytes b0 =>
        rw [horacle] at hres
        by_cases hb : b0.length = 0
        · simp only [if_pos hb] at hres ⊢
          obtain ⟨h1, ⟨u, hu1, hu2, hu3⟩, h3⟩ := ih (t + 1) b (by omega) hres
          exact ⟨h1, ⟨u, by omega, hu2, hu3⟩, by simp [h3]⟩
        · simp only [if_neg hb] at hres ⊢
          obtain rfl : b0 = b := by simpa using hres
          exact ⟨hb, ⟨t, le_refl t, by omega, horacle⟩, by simp⟩
      | threw =>
        rw [horacle] at hres
        by_cases ht4 : t = MAX_RETRIES
        · simp [ht4] at hres
        · simp only [if_neg ht4] at hres ⊢
          obtain ⟨h1, ⟨u, hu1, hu2, hu3⟩, h3⟩ := ih (t + 1) b (by omega) hres
          exact ⟨h1, ⟨u, by omega, hu2, hu3⟩, by simp [h3]⟩

theorem attLoop_all_fail (oracle : Nat → AttRes) (ps ci : Nat) :
    ∀ k t, MAX_RETRIES + 1 ≤ t + k →
      (∀ u b, t ≤ u → u ≤ MAX_RETRIES → oracle u = AttRes.bytes b → b.length = 0) →
      (attLoop oracle ps ci t).1 = none := by
  intro k
  induction k with
  | zero =>
    intro t ht _
    have hgt : MAX_RETRIES < t := by omega
    rw [attLoop]
    simp [hgt]
  | succ k ih =>
    intro t ht hfail
    by_cases hgt : MAX_RETRIES < t
    · rw [attLoop]; simp [hgt]
    · rw [attLoop]
      simp only [dif_neg hgt]
      cases horacle : oracle t with
      | bytes b =>
        have hb : b.length = 0 := hfail t b (le_refl t) (by omega) horacle
        simp only [if_pos hb]
        exact ih (t + 1) (by omega) (fun u b0 hu1 hu2 ho => hfail u b0 (by omega) hu2 ho)
      | threw =>
        by_cases ht4 : t = MAX_RETRIES
        · simp [ht4]
        · simp only [if_neg ht4]
          exact ih (t + 1) (by omega) (fun u b0 hu1 hu2 ho => hfail u b0 (by omega) hu2 ho)

theorem attLoop_sleeps (oracle : Nat → AttRes) (ps ci : Nat) :
    ∀ k t d, MAX_RETRIES + 1 ≤ t + k →
      FEv.sleep d ∈ (attLoop oracle ps ci t).2 →
      ∃ u, t ≤ u ∧ u < MAX_RETRIES ∧ oracle u = AttRes.threw ∧ d = 200 * 2 ^ (u - 1) := by
  intro k
  induction k with
  | zero =>
    intro t d ht hmem
    have hgt : MAX_RETRIES < t := by omega
    rw [attLoop] at hmem
    simp [hgt] at hmem
  | succ k ih =>
    intro t d ht hmem
    by_cases hgt : MAX_RETRIES < t
    · rw [attLoop] at hmem; simp [hgt] at hmem
    · rw [attLoop] at hmem
      simp only [dif_neg hgt] at hmem
      cases horacle : oracle t with
      | bytes b =>
        rw [horacle] at hmem
        by_cases hb : b.length = 0
        · simp only [if_pos hb, List.mem_cons] at hmem
          rcases hmem with h | h
          · cases h
          · obtain ⟨u, hu1, hu2, hu3, hu4⟩ := ih (t + 1) d (by omega) h
            exact ⟨u, by omega, hu2, hu3, hu4⟩
        · simp only [if_neg hb, List.mem_cons] at hmem
          rcases hmem with h | h | h
          · cases h
          · cases h
          · cases h
      | threw =>
        rw [horacle] at hmem
        by_cases ht4 : t = MAX_RETRIES
        · simp only [if_pos ht4, List.mem_cons] at hmem
          rcases hmem with h | h
          · cases h
          · cases h
        · simp only [if_neg ht4, List.mem_cons] at hmem
          rcases hmem with h | h | h
          · cases h
          · cases h
            exact ⟨t, le_refl t, by omega, horacle, rfl⟩
          · obtain ⟨u, hu1, hu2, hu3, hu4⟩ := ih (t + 1) d (by omega) h
            exact ⟨u, by omega, hu2, hu3, hu4⟩

-- ── Stream downloader and stopStream ───────────────────────────────────
--
-- A worker of StreamDownloader._worker is an async loop; between awaits
-- it runs uninterrupted, and only the scheduler (the event loop) moves it
-- forward.  Its phase below records where the loop currently stands:
-- about to test this.running, awaiting a chunk download, in its 30 ms
-- cooldown sleep, or exited.

/-- Phase of one persistent worker loop. -/
inductive WPhase where
  | checking
  | fetching (idx : Nat)
  | cooling
  | stopped
  deriving Repr, DecidableEq

/-- StreamDownloader state relevant to stop and worker shutdown. -/
structure Downloader where
  running : Bool
  cursor : Nat
  playbackChunk : Nat
  seekGen : Nat
  workers : List WPhase
  deriving Repr, DecidableEq

/-- StreamDownloader.stop: clear the running flag and drop the stored
worker promises.  It is synchronous: no worker phase changes here. -/
def dStop (d : Downloader) : Downloader := { d with running := false }

/-- One scheduler step of a worker (StreamDownloader._worker).  At the
top of the loop the running flag is tested; when it is false the loop
exits.  nextIdx abstracts the result of _getNextChunk. -/
def workerStep (d : Downloader) (nextIdx : Option Nat) : WPhase → WPhase
  | WPhase.checking =>
    if d.running then
      match nextIdx with
      | some i => WPhase.fetching i
      | none => WPhase.cooling
    else WPhase.stopped
  | WPhase.fetching _ => WPhase.cooling
  | WPhase.cooling => WPhase.checking
  | WPhase.stopped => WPhase.stopped

/-- The registry of active streams plus the shared chunk cache. -/
structure StreamsSt where
  streams : List (List Char × Downloader)
  cache : ChunkCacheSt
  deriving Repr, DecidableEq

/-- Find the downloader of a stream (activeStreams.get). -/
def findDl : List (List Char × Downloader) → List Char → Option Downloader
  | [], _ => none
  | e :: r, vid => if e.1 = vid then some e.2 else findDl r vid

/-- Remove a stream from the registry (activeStreams.delete). -/
def eraseDl : List (List Char × Downloader) → List Char → List (List Char × Downloader)
  | [], _ => []
  | e :: r, vid => if e.1 = vid then r else e :: eraseDl r vid

/-- The cache key of one chunk: videoId + colon + decimal chunk index. -/
def keyOf (vid : List Char) (i : Nat) : List Char :=
  vid ++ ':' :: (Nat.repr i).toList

/-- stopStream(videoId): stop the downloader when the stream exists,
delete the registration, and purge the cache by key prefix.  The second
component is the downloader object as it exists in memory when the call
returns. -/
def stopStreamM (st : StreamsSt) (vid : List Char) : StreamsSt × Option Downloader :=
  (⟨eraseDl st.streams vid, cacheDeletePfx st.cache (vid ++ [':'])⟩,
    (findDl st.streams vid).map dStop)

theorem keyOf_pfx (vid : List Char) (i : Nat) :
    keyOf vid i = (vid ++ [':']) ++ (Nat.repr i).toList := by
  simp [keyOf]

/-- stopStream leaves no cached entry of the stream behind. -/
theorem stopStreamM_cache (st : StreamsSt) (vid : List Char) (i : Nat) :
    cacheHas (stopStreamM st vid).1.cache (keyOf vid i) = false := by
  rw [keyOf_pfx]
  exact cacheHas_deletePfx st.cache (vid ++ [':']) (Nat.repr i).toList

-- ── Range header parsing (rangeHeader.match of bytes=(digits)-(digits?)) ──

/-- parseInt on a digit string. -/
def digitsToNat (ds : List Char) : Nat :=
  ds.foldl (fun a c => a * 10 + (c.toNat - 48)) 0

/-- The literal text the range pattern must find. -/
def bytesEqTok : List Char := ['b', 'y', 't', 'e', 's', '=']

/-- Try the pattern at the head of the string: the literal, one or more
digits, a dash, then zero or more digits (an empty second group counts
as absent, as an empty string is falsy). -/
def matchRangeAt (cs : List Char) : Option (Nat × Option Nat) :=
  if bytesEqTok.isPrefixOf cs then
    let rest := cs.drop 6
    let ds1 := rest.takeWhile Char.isDigit
    if ds1.isEmpty then none
    else
      match rest.dropWhile Char.isDigit with
      | '-' :: rest3 =>
        let ds2 := rest3.takeWhile Char.isDigit
        some (digitsToNat ds1, if ds2.isEmpty then none else some (digitsToNat ds2))
      | _ => none
  else none

/-- The regex scan: the leftmost position where the pattern matches. -/
def scanRange : List Char → Option (Nat × Option Nat)
  | [] => none
  | c :: rest =>
    match matchRangeAt (c :: rest) with
    | some r => some r
    | none => scanRange rest

-- ── Body emission (the while loop serving chunks) ──────────────────────

/-- The virtual stream reassembled from its chunks: chunk i holds bytes
[i * CHUNK_SIZE, min((i + 1) * CHUNK_SIZE, file length)). -/
def chunkOf (file : List Nat) (i : Nat) : List Nat :=
  (file.drop (i * CHUNK_SIZE)).take CHUNK_SIZE

/-- The serving loop of the GET handler.  Each round reads the chunk
under bytePos through the fetch oracle (cache, in-flight await or inline
download collapse to one read; a null or empty buffer is a failure).
Failures bump the consecutive-failure counter: at
MAX_CONSECUTIVE_FAILURES the response is aborted, otherwise the same
position is retried.  On success the slice from the offset within the
chunk up to the requested end is emitted.  The fuel only bounds the
recursion and is chosen large enough to never run out. -/
def serveChunks (fetch : Nat → Option (List Nat)) (targetEnd : Nat) :
    Nat → Nat → Nat → List Nat
  | _, _, 0 => []
  | bytePos, fails, fuel + 1 =>
    if bytePos < targetEnd then
      match fetch (bytePos / CHUNK_SIZE) with
      | none =>
        if MAX_CONSECUTIVE_FAILURES ≤ fails + 1 then []
        else serveChunks fetch targetEnd bytePos (fails + 1) fuel
      | some buf =>
        if buf.length = 0 then
          if MAX_CONSECUTIVE_FAILURES ≤ fails + 1 then []
          else serveChunks fetch targetEnd bytePos (fails + 1) fuel
        else
          if min (buf.length - bytePos % CHUNK_SIZE) (targetEnd - bytePos) = 0 then []
          else
            (buf.drop (bytePos % CHUNK_SIZE)).take
                (min (buf.length - bytePos % CHUNK_SIZE) (targetEnd - bytePos)) ++
              serveChunks fetch targetEnd
                (bytePos + min (buf.length - bytePos % CHUNK_SIZE) (targetEnd - bytePos))
                0 fuel
    else []

theorem serveChunks_done (fetch : Nat → Option (List Nat)) (targetEnd bytePos fails fuel : Nat)
    (h : targetEnd ≤ bytePos) : serveChunks fetch targetEnd bytePos fails fuel = [] := by
  cases fuel with
  | zero => rfl
  | succ k => simp [serveChunks, Nat.not_lt.mpr h]

/-- A successful round of the serving loop emits one slice and recurses
at the advanced position with the failure counter reset. -/
theorem serveChunks_step (fetch : Nat → Option (List Nat))
    (targetEnd bytePos fails fuel : Nat) (buf : List Nat)
    (hlt : bytePos < targetEnd) (hfe : fetch (bytePos / CHUNK_SIZE) = some buf)
    (hne : ¬ buf.length = 0)
    (htoW : ¬ min (buf.length - bytePos % CHUNK_SIZE) (targetEnd - bytePos) = 0) :
    serveChunks fetch targetEnd bytePos fails (fuel + 1) =
      (buf.drop (bytePos % CHUNK_SIZE)).take
          (min (buf.length - bytePos % CHUNK_SIZE) (targetEnd - bytePos)) ++
        serveChunks fetch targetEnd
          (bytePos + min (buf.length - bytePos % CHUNK_SIZE) (targetEnd - bytePos)) 0 fuel := by
  simp only [serveChunks, if_pos hlt, hfe]
  rw [if_neg hne, if_neg htoW]

/-- When every fetch returns the chunk of the virtual stream, the loop
emits exactly the bytes [bytePos, targetEnd) of the stream. -/
theorem serveChunks_eq (file : List Nat) :
    ∀ fuel bytePos fails targetEnd,
      targetEnd ≤ file.length →
      targetEnd - bytePos ≤ fuel →
      serveChunks (fun i => some (chunkOf file i)) targetEnd bytePos fails fuel =
        (file.drop bytePos).take (targetEnd - bytePos) := by
  intro fuel
  induction fuel with
  | zero =>
    intro bytePos fails targetEnd hlen hfuel
    have h0 : targetEnd - bytePos = 0 := by omega
    simp [serveChunks, h0]
  | succ fuel ih =>
    intro bytePos fails targetEnd hlen hfuel
    by_cases hlt : bytePos < targetEnd
    · have hcs : 0 < CHUNK_SIZE := by simp [CHUNK_SIZE]
      have hcomm : CHUNK_SIZE * (bytePos / CHUNK_SIZE) =
          bytePos / CHUNK_SIZE * CHUNK_SIZE := Nat.mul_comm _ _
      have hidx : bytePos / CHUNK_SIZE * CHUNK_SIZE ≤ bytePos := Nat.div_mul_le_self _ _
      have hmod : bytePos % CHUNK_SIZE < CHUNK_SIZE := Nat.mod_lt _ hcs
      have hdivmod : bytePos / CHUNK_SIZE * CHUNK_SIZE + bytePos % CHUNK_SIZE = bytePos := by
        have := Nat.div_add_mod bytePos CHUNK_SIZE
        omega
      have hbuflen : (chunkOf file (bytePos / CHUNK_SIZE)).length =
          min CHUNK_SIZE (file.length - bytePos / CHUNK_SIZE * CHUNK_SIZE) := by
        simp [chunkOf, List.length_take, List.length_drop]
      have hpos : bytePos < file.length := by omega
      have havail : 0 < (chunkOf file (bytePos / CHUNK_SIZE)).length - bytePos % CHUNK_SIZE := by
        rw [hbuflen]
        have hblt : bytePos % CHUNK_SIZE <
            min CHUNK_SIZE (file.length - bytePos / CHUNK_SIZE * CHUNK_SIZE) := by
          rw [Nat.lt_min]
          exact ⟨hmod, by omega⟩
        omega
      have hbufne : ¬ (chunkOf file (bytePos / CHUNK_SIZE)).length = 0 := by omega
      have htoWpos :
          0 < min ((chunkOf file (bytePos / CHUNK_SIZE)).length - bytePos % CHUNK_SIZE)
            (targetEnd - bytePos) := by
        rw [Nat.lt_min]
        exact ⟨havail, by omega⟩
      have hMle : min ((chunkOf file (bytePos / CHUNK_SIZE)).length - bytePos % CHUNK_SIZE)
            (targetEnd - bytePos) ≤ targetEnd - bytePos := Nat.min_le_right _ _
      have hslice : ((chunkOf file (bytePos / CHUNK_SIZE)).drop (bytePos % CHUNK_SIZE)).take
            (min ((chunkOf file (bytePos / CHUNK_SIZE)).length - bytePos % CHUNK_SIZE)
              (targetEnd - bytePos)) =
          (file.drop bytePos).take
            (min ((chunkOf file (bytePos / CHUNK_SIZE)).length - bytePos % CHUNK_SIZE)
              (targetEnd - bytePos)) := by
        simp only [chunkOf]
        rw [List.drop_take, List.drop_drop, hdivmod, List.take_take]
        congr 1
        apply Nat.min_eq_left
        apply le_trans (Nat.min_le_left _ _)
        apply Nat.sub_le_sub_right
        exact List.length_take_le _ _
      rw [serveChunks_step (fun i => some (chunkOf file i)) targetEnd bytePos fails fuel
        (chunkOf file (bytePos / CHUNK_SIZE)) hlt rfl hbufne (by omega)]
      rw [hslice]
      rw [ih (bytePos + min ((chunkOf file (bytePos / CHUNK_SIZE)).length - bytePos % CHUNK_SIZE)
          (targetEnd - bytePos)) 0 targetEnd hlen (by omega)]
      have hsplit : (file.drop bytePos).take (targetEnd - bytePos) =
          (file.drop bytePos).take
              (min ((chunkOf file (bytePos / CHUNK_SIZE)).length - bytePos % CHUNK_SIZE)
                (targetEnd - bytePos)) ++
            ((file.drop bytePos).drop
                (min ((chunkOf file (bytePos / CHUNK_SIZE)).length - bytePos % CHUNK_SIZE)
                  (targetEnd - bytePos))).take
              (targetEnd - bytePos -
                min ((chunkOf file (bytePos / CHUNK_SIZE)).length - bytePos % CHUNK_SIZE)
                  (targetEnd - bytePos)) := by
        rw [← List.take_add]
        congr 1
        omega
      rw [hsplit]
      congr 1
      rw [List.drop_drop]
      congr 1
      omega
    · rw [serveChunks_done _ _ _ _ _ (by omega)]
      have h0 : targetEnd - bytePos = 0 := by omega
      simp [h0]

-- ── The GET handler of startLocalServer ────────────────────────────────

/-- The parse result used by the handler: none when the header is absent
or untruthy (empty) or the pattern does not match anywhere. -/
def parsedOf (hdr : Option (List Char)) : Option (Nat × Option Nat) :=
  match hdr with
  | none => none
  | some cs => if cs.isEmpty then none else scanRange cs

/-- Truthiness of the range header (an empty header string is falsy). -/
def activeOf (hdr : Option (List Char)) : Bool :=
  match hdr with
  | none => false
  | some cs => !cs.isEmpty

/-- start: the first capture group, defaulting to 0. -/
def startOf (hdr : Option (List Char)) : Nat :=
  match parsedOf hdr with
  | some p => p.1
  | none => 0

/-- end after the clamp: the second capture group when present, else
fileSize - 1; then clamped to fileSize - 1 (JavaScript arithmetic, so an
Int: fileSize 0 gives -1). -/
def endOf (fs : Nat) (hdr : Option (List Char)) : Int :=
  let end0 : Int :=
    match parsedOf hdr with
    | some (_, some e) => (e : Int)
    | _ => (fs : Int) - 1
  if (fs : Int) ≤ end0 then (fs : Int) - 1 else end0

/-- total chunk count Math.ceil(fileSize / CHUNK_SIZE). -/
def totalChunksOf (fs : Nat) : Nat := (fs + CHUNK_SIZE - 1) / CHUNK_SIZE

/-- Observable events of one GET in program order: the seekTo call, the
parallel burst fetches, then each emitted body byte. -/
inductive SEv where
  | seekEv (i : Nat)
  | fetchEv (i : Nat)
  | writeEv (b : Nat)
  deriving Repr, DecidableEq

/-- The response of one GET request. -/
structure GetResp where
  status : Nat
  contentLength : Int
  contentRange : Option String
  seekTarget : Option Nat
  burst : List Nat
  body : List Nat
  events : List SEv
  deriving Repr, DecidableEq

/-- The uncached indices of [firstChunk, min(firstChunk +
SEEK_PREBUF_CHUNKS, totalChunks)) fetched by the seek burst. -/
def burstOf (cached : Nat → Bool) (firstChunk totalChunks : Nat) : List Nat :=
  (List.range' firstChunk
      (min (firstChunk + SEEK_PREBUF_CHUNKS) totalChunks - firstChunk)).filter
    (fun i => !(cached i))

/-- The GET handler for a registered stream of size fs: parse the Range
header, emit 206/200 headers, run the seek burst when the first
requested chunk is uncached, then emit the body.  fetch abstracts the
cache, in-flight await and inline download of one chunk; cached is the
chunkCache.has probe used by the burst logic. -/
def handleGet (fs : Nat) (fetch : Nat → Option (List Nat)) (cached : Nat → Bool)
    (hdr : Option (List Char)) : GetResp :=
  let start := startOf hdr
  let endV := endOf fs hdr
  let active := activeOf hdr
  let firstChunk := start / CHUNK_SIZE
  let seekTarget : Option Nat := if cached firstChunk then none else some firstChunk
  let burst : List Nat :=
    if cached firstChunk then [] else burstOf cached firstChunk (totalChunksOf fs)
  let targetEnd : Nat := (endV + 1).toNat
  let body := serveChunks fetch targetEnd start 0 (6 * (targetEnd + 1))
  { status := if active then 206 else 200
    contentLength := endV - (start : Int) + 1
    contentRange :=
      if active then
        some ("bytes " ++ toString start ++ "-" ++ toString endV ++ "/" ++ toString fs)
      else none
    seekTarget := seekTarget
    burst := burst
    body := body
    events :=
      (match seekTarget with | some i => [SEv.seekEv i] | none => []) ++
        burst.map SEv.fetchEv ++ body.map SEv.writeEv }

-- ── Claim theorems ─────────────────────────────────────────────────────

theorem runOps_maxBytes (ops : List CacheOp) :
    ∀ c, (runOps c ops).maxBytes = c.maxBytes := by
  induction ops with
  | nil => intro c; rfl
  | cons op rest ih =>
    intro c
    have : runOps c (op :: rest) = runOps (applyOp c op) rest := rfl
    rw [this, ih, applyOp_maxBytes]

theorem cacheSet_empty_used (maxB : Nat) (k : List Char) (v : List Nat) :
    (cacheSet (emptyCache maxB) k v).usedBytes = v.length := by
  simp [cacheSet, reclaimOld, emptyCache, findVal, evictLoop]

/-- C1, counterexample: inserting one entry larger than the budget is
not rejected; the set call evicts everything and still stores it, so
usedBytes ends above CACHE_MAX_BYTES. -/
theorem c1_budget_counterexample :
    CACHE_MAX_BYTES <
      (runOps (emptyCache CACHE_MAX_BYTES)
        [CacheOp.ins ['k'] (List.replicate (CACHE_MAX_BYTES + 1) 0)]).usedBytes := by
  have h0 : runOps (emptyCache CACHE_MAX_BYTES)
      [CacheOp.ins ['k'] (List.replicate (CACHE_MAX_BYTES + 1) 0)] =
      cacheSet (emptyCache CACHE_MAX_BYTES) ['k'] (List.replicate (CACHE_MAX_BYTES + 1) 0) :=
    rfl
  rw [h0, cacheSet_empty_used, List.length_replicate]
  omega

/-- C1 (amended): for every operation sequence in which each inserted
entry is no larger than CACHE_MAX_BYTES (in practice a chunk is at most
CHUNK_SIZE), usedBytes stays within CACHE_MAX_BYTES at every observation
point; an oversized entry instead evicts the whole cache and is stored
anyway, exceeding the budget. -/
theorem c1_budget_invariant_wellSized (ops : List CacheOp)
    (hsz : ∀ k v, CacheOp.ins k v ∈ ops → v.length ≤ CACHE_MAX_BYTES) :
    ∀ l1 l2, ops = l1 ++ l2 →
      (runOps (emptyCache CACHE_MAX_BYTES) l1).usedBytes ≤ CACHE_MAX_BYTES := by
  intro l1 l2 heq
  have hinv := runOps_inv l1 (emptyCache CACHE_MAX_BYTES) ⟨rfl, Nat.zero_le _⟩
    (fun k v hm => hsz k v (by rw [heq]; exact List.mem_append_left _ hm))
  have hmax := runOps_maxBytes l1 (emptyCache CACHE_MAX_BYTES)
  have := hinv.2
  rw [hmax] at this
  exact this

theorem c1_budget_invariant_wellSized_witness :
    (runOps (emptyCache CACHE_MAX_BYTES) [CacheOp.ins ['k'] [7]]).usedBytes ≤
      CACHE_MAX_BYTES := by
  apply c1_budget_invariant_wellSized [CacheOp.ins ['k'] [7], CacheOp.get ['k']]
    ?_ [CacheOp.ins ['k'] [7]] [CacheOp.get ['k']] rfl
  intro k v hm
  simp at hm
  rcases hm with ⟨_, rfl⟩
  simp [CACHE_MAX_BYTES]

/-- C6: the cache is LRU by insertion order of recency updates: a batch
of fresh fitting inserts lines up in order behind nothing, byte-pressure
eviction always removes a front segment of that order (k1 before k2
before ...), and a hit returns the stored bytes and moves the key to the
most-recent position (the end of the order). -/
theorem c6_lru_order :
    (∀ (l : List (List Char × List Nat)) (maxB : Nat),
        (l.map Prod.fst).Nodup → bytesOf l ≤ maxB →
        (insertAll (emptyCache maxB) l).entries = l) ∧
    (∀ (maxB need : Nat) (l : List (List Char × List Nat)) (used : Nat),
        ∃ j, (evictLoop maxB need l used).1 = l.drop j) ∧
    (∀ (c : ChunkCacheSt) (k : List Char) (v : List Nat),
        findVal c.entries k = some v →
        cacheGet c k = (some v, { c with entries := eraseVal c.entries k ++ [(k, v)] })) := by
  refine ⟨?_, ?_, ?_⟩
  · intro l maxB hnodup hfit
    have h := insertAll_fresh l (emptyCache maxB) rfl (by simpa [emptyCache] using hnodup)
      (by simpa [emptyCache] using hfit)
    simpa [emptyCache] using h.1
  · intro maxB need l used
    exact evictLoop_drop maxB need l used
  · intro c k v hfind
    simp [cacheGet, hfind]

theorem c6_lru_order_witness :
    (insertAll (emptyCache 10) [(['a'], [1]), (['b'], [2])]).entries =
        [(['a'], [1]), (['b'], [2])] ∧
      (∃ j, (evictLoop 10 9 [(['a'], [1]), (['b'], [2])] 2).1 =
        List.drop j [(['a'], [1]), (['b'], [2])]) ∧
      cacheGet ⟨10, 2, [(['a'], [1]), (['b'], [2])]⟩ ['a'] =
        (some [1], ⟨10, 2, [(['b'], [2]), (['a'], [1])]⟩) := by
  refine ⟨c6_lru_order.1 [(['a'], [1]), (['b'], [2])] 10 (by decide) (by decide),
    c6_lru_order.2.1 10 9 [(['a'], [1]), (['b'], [2])] 2, ?_⟩
  have h := c6_lru_order.2.2 ⟨10, 2, [(['a'], [1]), (['b'], [2])]⟩ ['a'] [1] (by decide)
  exact h.trans (by decide)

/-- C4: during one cache-miss episode (the key stays registered until the
finally clause removes it), any number of downloadChunk arrivals start
exactly one underlying fetch: the first arrival registers promise 1 and
every later arrival awaits that same promise instead of fetching. -/
theorem c4_single_fetch_per_episode (flags : List Bool)
    (hmiss : ∀ f ∈ flags, f = false) (hne : flags ≠ []) :
    (runArrivals ⟨false, 0, 0⟩ flags).1.fetches = 1 ∧
      (runArrivals ⟨false, 0, 0⟩ flags).2 =
        FetchAct.starts 1 :: List.replicate (flags.length - 1) (FetchAct.joins 1) := by
  cases flags with
  | nil => exact absurd rfl hne
  | cons b rest =>
    have hb : b = false := hmiss b (by simp)
    subst hb
    have hall : ∀ f ∈ rest, f = false := fun f hf => hmiss f (List.mem_cons_of_mem _ hf)
    have hreg := runArrivals_registered rest 1 1 hall
    have h1 : dcArrive false ⟨false, 0, 0⟩ = (⟨true, 1, 1⟩, FetchAct.starts 1) := rfl
    simp [runArrivals, h1, hreg]

theorem c4_single_fetch_per_episode_witness :
    (runArrivals ⟨false, 0, 0⟩ [false, false, false]).1.fetches = 1 ∧
      (runArrivals ⟨false, 0, 0⟩ [false, false, false]).2 =
        FetchAct.starts 1 :: List.replicate 2 (FetchAct.joins 1) :=
  c4_single_fetch_per_episode [false, false, false] (by decide) (by decide)

/-- C5, counterexample: stopStream returns while a worker is still in
its cooldown phase; the workers have not terminated when the call
returns, they only exit at their next check of the running flag. -/
theorem c5_workers_not_terminated_counterexample :
    (stopStreamM ⟨[(['s'], ⟨true, 0, 0, 0, [WPhase.cooling]⟩)], emptyCache 10⟩ ['s']).2 =
        some ⟨false, 0, 0, 0, [WPhase.cooling]⟩ ∧
      WPhase.cooling ≠ WPhase.stopped := by
  decide

/-- C5 (amended): after stopStream returns, no cache entry of the
stream remains and the running flag of its downloader is cleared, so
each worker exits at its next loop check; the workers need not have
terminated by the time the call returns. -/
theorem c5_stop_stream_purge_amended (st : StreamsSt) (vid : List Char) (d : Downloader)
    (hfound : findDl st.streams vid = some d) :
    (∀ i, cacheHas (stopStreamM st vid).1.cache (keyOf vid i) = false) ∧
      (stopStreamM st vid).2 = some (dStop d) ∧
      (dStop d).running = false ∧
      (dStop d).workers = d.workers ∧
      (∀ nextIdx, workerStep (dStop d) nextIdx WPhase.checking = WPhase.stopped) := by
  refine ⟨fun i => stopStreamM_cache st vid i, ?_, rfl, rfl, ?_⟩
  · simp [stopStreamM, hfound]
  · intro nextIdx
    simp [workerStep, dStop]

theorem c5_stop_stream_purge_amended_witness :
    cacheHas (stopStreamM ⟨[(['s'], ⟨true, 1, 0, 0, [WPhase.checking]⟩)],
        emptyCache 10⟩ ['s']).1.cache (keyOf ['s'] 0) = false :=
  (c5_stop_stream_purge_amended ⟨[(['s'], ⟨true, 1, 0, 0, [WPhase.checking]⟩)], emptyCache 10⟩
    ['s'] ⟨true, 1, 0, 0, [WPhase.checking]⟩ (by decide)).1 0

/-- C3: across any sequence of ensureClientPool calls in one process
run against the deterministic mock transport, the pool performs at most
one authentication exchange: exactly one when no credential was
persisted, zero when a valid one was; afterwards the pool holds
CLIENT_POOL_SIZE connected siblings all replaying the persisted
credential (clones issue no authentication RPC). -/
theorem c3_auth_once (valid : List Char → Bool) (st0 : PoolSt) (n : Nat)
    (hpool : st0.pool = []) (hauth : st0.authCount = 0) (hn : 1 ≤ n) :
    (ensureN valid st0 n).authCount ≤ 1 ∧
      (st0.saved = none → (ensureN valid st0 n).authCount = 1) ∧
      (∀ s, st0.saved = some s → valid s = true → (ensureN valid st0 n).authCount = 0) ∧
      (∃ m, (ensureN valid st0 n).saved = some m ∧
        (ensureN valid st0 n).pool = List.replicate CLIENT_POOL_SIZE (mkClient m)) := by
  obtain ⟨k, rfl⟩ : ∃ k, n = k + 1 := ⟨n - 1, by omega⟩
  have hcold := ensurePool_cold valid st0 hpool
  have hfix : ensureN valid st0 (k + 1) = ensurePool valid st0 := by
    show ensureN valid (ensurePool valid st0) k = ensurePool valid st0
    exact ensureN_of_ready valid k _ hcold.1
  rw [hfix]
  have h2 := hcold.2
  rw [hauth] at h2
  refine ⟨?_, ?_, ?_, hcold.1⟩
  · rcases hsv : st0.saved with _ | s
    · rw [hsv] at h2
      simp at h2
      omega
    · rw [hsv] at h2
      by_cases hv : valid s
      · simp [hv] at h2
        omega
      · simp [hv] at h2
        omega
  · intro hnone
    rw [hnone] at h2
    simpa using h2
  · intro s hs hv
    rw [hs] at h2
    simpa [hv] using h2

theorem c3_auth_once_witness :
    (ensureN (fun _ => true) ⟨[], none, 0⟩ 2).authCount = 1 :=
  (c3_auth_once (fun _ => true) ⟨[], none, 0⟩ 2 rfl rfl (by omega)).2.1 rfl

/-- C7, counterexample: an in-range chunk whose four attempts all yield
an empty buffer without throwing makes four attempts (four session
acquisitions) with no backoff sleep between any of them, and returns
null; the claimed sleep of 200 ms * 2 ^ (t - 1) between attempts does
not happen on the empty-result path. -/
theorem c7_no_sleep_counterexample :
    (dImpl (fun _ => AttRes.bytes []) 3 0 1).2 =
        [FEv.acquire 0, FEv.acquire 1, FEv.acquire 2, FEv.acquire 0] ∧
      (∀ d, FEv.sleep d ∉ (dImpl (fun _ => AttRes.bytes []) 3 0 1).2) ∧
      (dImpl (fun _ => AttRes.bytes []) 3 0 1).1 = none := by
  have hev : dImpl (fun _ => AttRes.bytes []) 3 0 1 =
      (none, [FEv.acquire 0, FEv.acquire 1, FEv.acquire 2, FEv.acquire 0]) := by
    simp [dImpl, CHUNK_SIZE, attLoop, MAX_RETRIES]
  rw [hev]
  refine ⟨rfl, ?_, rfl⟩
  intro d
  simp

/-- C7 (amended): for a fetch that misses cache and in-flight registry
on an in-file chunk, at most MAX_RETRIES = 4 attempts are made; attempt
t acquires the session at (chunk_index + t - 1) mod pool_size; the first
nonempty result is stored in the cache and returned; if every attempt
fails (throws or yields an empty buffer) the result is null; a backoff
sleep of 200 ms * 2 ^ (t - 1) separates attempts only when attempt
t < 4 threw an error - an empty non-error result continues immediately
with no sleep; and the in-flight entry is removed in every outcome. -/
theorem c7_retry_schedule_amended (oracle : Nat → AttRes) (ps ci fs : Nat)
    (hin : ci * CHUNK_SIZE < fs) :
    (acqIdxs (dImpl oracle ps ci fs).2).length ≤ MAX_RETRIES ∧
      acqIdxs (dImpl oracle ps ci fs).2 =
        (List.range' 1 (acqIdxs (dImpl oracle ps ci fs).2).length).map
          (fun t => (ci + t - 1) % ps) ∧
      (∀ b, (dImpl oracle ps ci fs).1 = some b →
        b.length ≠ 0 ∧ (∃ t, 1 ≤ t ∧ t ≤ MAX_RETRIES ∧ oracle t = AttRes.bytes b) ∧
          FEv.cacheIns ∈ (dImpl oracle ps ci fs).2) ∧
      ((∀ u b, 1 ≤ u → u ≤ MAX_RETRIES → oracle u = AttRes.bytes b → b.length = 0) →
        (dImpl oracle ps ci fs).1 = none) ∧
      (∀ d, FEv.sleep d ∈ (dImpl oracle ps ci fs).2 →
        ∃ t, 1 ≤ t ∧ t < MAX_RETRIES ∧ oracle t = AttRes.threw ∧ d = 200 * 2 ^ (t - 1)) ∧
      (∀ (reg : List Char → Bool) (key : List Char) (outcome : Bool),
        dWrapReg reg key outcome key = false) := by
  have himpl : dImpl oracle ps ci fs = attLoop oracle ps ci 1 := by
    simp [dImpl, Nat.not_le.mpr hin]
  rw [himpl]
  have hk : MAX_RETRIES + 1 ≤ 1 + MAX_RETRIES := by omega
  refine ⟨?_, ?_, ?_, ?_, ?_, ?_⟩
  · have := attLoop_acq_len oracle ps ci MAX_RETRIES 1 hk
    omega
  · exact attLoop_acq_rotation oracle ps ci MAX_RETRIES 1 hk
  · intro b hres
    have := attLoop_success oracle ps ci MAX_RETRIES 1 b hk hres
    exact ⟨this.1, this.2.1, this.2.2⟩
  · intro hfail
    exact attLoop_all_fail oracle ps ci MAX_RETRIES 1 hk
      (fun u b hu1 hu2 ho => hfail u b hu1 hu2 ho)
  · intro d hmem
    exact attLoop_sleeps oracle ps ci MAX_RETRIES 1 d hk hmem
  · intro reg key outcome
    exact dWrapReg_removed reg key outcome

theorem c7_retry_schedule_amended_witness :
    (acqIdxs (dImpl (fun _ => AttRes.threw) 3 5 (6 * CHUNK_SIZE)).2).length ≤ MAX_RETRIES ∧
      acqIdxs (dImpl (fun _ => AttRes.threw) 3 5 (6 * CHUNK_SIZE)).2 =
        (List.range' 1
            (acqIdxs (dImpl (fun _ => AttRes.threw) 3 5 (6 * CHUNK_SIZE)).2).length).map
          (fun t => (5 + t - 1) % 3) ∧
      (∀ b, (dImpl (fun _ => AttRes.threw) 3 5 (6 * CHUNK_SIZE)).1 = some b →
        b.length ≠ 0 ∧
          (∃ t, 1 ≤ t ∧ t ≤ MAX_RETRIES ∧ (fun _ => AttRes.threw) t = AttRes.bytes b) ∧
          FEv.cacheIns ∈ (dImpl (fun _ => AttRes.threw) 3 5 (6 * CHUNK_SIZE)).2) ∧
      ((∀ u b, 1 ≤ u → u ≤ MAX_RETRIES →
          (fun _ => AttRes.threw) u = AttRes.bytes b → b.length = 0) →
        (dImpl (fun _ => AttRes.threw) 3 5 (6 * CHUNK_SIZE)).1 = none) ∧
      (∀ d, FEv.sleep d ∈ (dImpl (fun _ => AttRes.threw) 3 5 (6 * CHUNK_SIZE)).2 →
        ∃ t, 1 ≤ t ∧ t < MAX_RETRIES ∧ (fun _ => AttRes.threw) t = AttRes.threw ∧
          d = 200 * 2 ^ (t - 1)) ∧
      (∀ (reg : List Char → Bool) (key : List Char) (outcome : Bool),
        dWrapReg reg key outcome key = false) :=
  c7_retry_schedule_amended (fun _ => AttRes.threw) 3 5 (6 * CHUNK_SIZE)
    (by simp [CHUNK_SIZE])

theorem scanRange_ne_nil {cs : List Char} {r : Nat × Option Nat}
    (h : scanRange cs = some r) : cs.isEmpty = false := by
  cases cs with
  | nil => simp [scanRange] at h
  | cons c rest => rfl

/-- The end of the requested range as the claim states it: the second
capture group when present, defaulting to fileSize - 1 when absent, and
clamped to fileSize - 1. -/
def rangeEndNat (fs : Nat) (oe : Option Nat) : Nat :=
  match oe with
  | none => fs - 1
  | some e0 => min e0 (fs - 1)

theorem endOf_eq_rangeEndNat (fs : Nat) (cs : List Char) (S : Nat) (oe : Option Nat)
    (hparsed : parsedOf (some cs) = some (S, oe)) (hfs1 : 1 ≤ fs) :
    endOf fs (some cs) = (rangeEndNat fs oe : Int) := by
  cases oe with
  | none =>
    simp only [endOf, hparsed, rangeEndNat]
    split <;> omega
  | some e0 =>
    simp only [endOf, hparsed, rangeEndNat]
    split <;> omega

/-- C2: for a Range header matching bytes=S-E (E defaulting to
fileSize - 1 when absent and clamped to fileSize - 1) with
S <= E < fileSize, the GET response is 206 with Content-Range
"bytes S-E/fileSize" and Content-Length E - S + 1, and when every chunk
read succeeds the body is exactly bytes [S, E] of the stream reassembled
from its chunks. -/
theorem c2_range_correctness (file : List Nat) (cached : Nat → Bool)
    (cs : List Char) (S : Nat) (oe : Option Nat)
    (hparse : scanRange cs = some (S, oe))
    (hSE : S ≤ rangeEndNat file.length oe)
    (hEfs : rangeEndNat file.length oe < file.length) :
    (handleGet file.length (fun i => some (chunkOf file i)) cached (some cs)).status = 206 ∧
      (handleGet file.length (fun i => some (chunkOf file i)) cached
          (some cs)).contentLength =
        (rangeEndNat file.length oe : Int) - (S : Int) + 1 ∧
      (handleGet file.length (fun i => some (chunkOf file i)) cached
          (some cs)).contentRange =
        some ("bytes " ++ toString S ++ "-" ++ toString (rangeEndNat file.length oe : Int) ++
          "/" ++ toString file.length) ∧
      (handleGet file.length (fun i => some (chunkOf file i)) cached (some cs)).body =
        (file.drop S).take (rangeEndNat file.length oe + 1 - S) ∧
      (handleGet file.length (fun i => some (chunkOf file i)) cached
          (some cs)).body.length = rangeEndNat file.length oe + 1 - S := by
  have hisEmpty : cs.isEmpty = false := scanRange_ne_nil hparse
  have hparsed : parsedOf (some cs) = some (S, oe) := by
    simp [parsedOf, hisEmpty, hparse]
  have hstart : startOf (some cs) = S := by simp [startOf, hparsed]
  have hactive : activeOf (some cs) = true := by simp [activeOf, hisEmpty]
  have hend : endOf file.length (some cs) = (rangeEndNat file.length oe : Int) :=
    endOf_eq_rangeEndNat file.length cs S oe hparsed (by omega)
  have ht : ((rangeEndNat file.length oe : Int) + 1).toNat =
      rangeEndNat file.length oe + 1 := by omega
  have hbody : (handleGet file.length (fun i => some (chunkOf file i)) cached
      (some cs)).body = (file.drop S).take (rangeEndNat file.length oe + 1 - S) := by
    simp only [handleGet]
    rw [hstart, hend, ht]
    rw [serveChunks_eq file (6 * (rangeEndNat file.length oe + 1 + 1)) S 0
      (rangeEndNat file.length oe + 1) (by omega) (by omega)]
  refine ⟨by simp [handleGet, hactive], by simp [handleGet, hstart, hend],
    by simp [handleGet, hactive, hstart, hend], hbody, ?_⟩
  rw [hbody]
  simp only [List.length_take, List.length_drop]
  omega

theorem c2_range_correctness_witness :
    (handleGet (List.length [10, 11, 12, 13, 14])
        (fun i => some (chunkOf [10, 11, 12, 13, 14] i)) (fun _ => false)
        (some ['b', 'y', 't', 'e', 's', '=', '1', '-', '3'])).status = 206 ∧
      (handleGet (List.length [10, 11, 12, 13, 14])
          (fun i => some (chunkOf [10, 11, 12, 13, 14] i)) (fun _ => false)
          (some ['b', 'y', 't', 'e', 's', '=', '1', '-', '3'])).contentLength =
        (rangeEndNat (List.length [10, 11, 12, 13, 14]) (some 3) : Int) - ((1 : Nat) : Int) +
          1 ∧
      (handleGet (List.length [10, 11, 12, 13, 14])
          (fun i => some (chunkOf [10, 11, 12, 13, 14] i)) (fun _ => false)
          (some ['b', 'y', 't', 'e', 's', '=', '1', '-', '3'])).contentRange =
        some ("bytes " ++ toString (1 : Nat) ++ "-" ++
          toString (rangeEndNat (List.length [10, 11, 12, 13, 14]) (some 3) : Int) ++ "/" ++
          toString (List.length [10, 11, 12, 13, 14])) ∧
      (handleGet (List.length [10, 11, 12, 13, 14])
          (fun i => some (chunkOf [10, 11, 12, 13, 14] i)) (fun _ => false)
          (some ['b', 'y', 't', 'e', 's', '=', '1', '-', '3'])).body =
        (List.drop 1 [10, 11, 12, 13, 14]).take
          (rangeEndNat (List.length [10, 11, 12, 13, 14]) (some 3) + 1 - 1) ∧
      (handleGet (List.length [10, 11, 12, 13, 14])
          (fun i => some (chunkOf [10, 11, 12, 13, 14] i)) (fun _ => false)
          (some ['b', 'y', 't', 'e', 's', '=', '1', '-', '3'])).body.length =
        rangeEndNat (List.length [10, 11, 12, 13, 14]) (some 3) + 1 - 1 :=
  c2_range_correctness [10, 11, 12, 13, 14] (fun _ => false)
    ['b', 'y', 't', 'e', 's', '=', '1', '-', '3'] 1 (some 3)
    (by decide) (by decide) (by decide)

/-- C9: a nonempty Range header that the pattern does not match (such as
the suffix form bytes=-N) is not rejected: start and end keep their
defaults, yet the 206 branch is taken because the raw header is truthy,
so the response is 206 with Content-Range "bytes 0-(fileSize-1)/fileSize",
Content-Length fileSize, and (with all chunk reads succeeding) the body
is the whole file. -/
theorem c9_malformed_range_full_file (file : List Nat) (cached : Nat → Bool)
    (cs : List Char) (hne : cs.isEmpty = false) (hparse : scanRange cs = none) :
    (handleGet file.length (fun i => some (chunkOf file i)) cached (some cs)).status = 206 ∧
      (handleGet file.length (fun i => some (chunkOf file i)) cached
          (some cs)).contentLength = (file.length : Int) ∧
      (handleGet file.length (fun i => some (chunkOf file i)) cached
          (some cs)).contentRange =
        some ("bytes " ++ toString (0 : Nat) ++ "-" ++ toString ((file.length : Int) - 1) ++
          "/" ++ toString file.length) ∧
      (handleGet file.length (fun i => some (chunkOf file i)) cached (some cs)).body =
        file := by
  have hparsed : parsedOf (some cs) = none := by
    simp [parsedOf, hne, hparse]
  have hstart : startOf (some cs) = 0 := by simp [startOf, hparsed]
  have hactive : activeOf (some cs) = true := by simp [activeOf, hne]
  have hend : endOf file.length (some cs) = (file.length : Int) - 1 := by
    simp only [endOf, hparsed]
    split <;> rfl
  have ht : ((file.length : Int) - 1 + 1).toNat = file.length := by omega
  have hbody : (handleGet file.length (fun i => some (chunkOf file i)) cached
      (some cs)).body = file := by
    simp only [handleGet]
    rw [hstart, hend, ht]
    rw [serveChunks_eq file (6 * (file.length + 1)) 0 0 file.length (le_refl _) (by omega)]
    simp
  refine ⟨by simp [handleGet, hactive], ?_, by simp [handleGet, hactive, hstart, hend],
    hbody⟩
  simp [handleGet, hstart, hend]

theorem c9_malformed_range_full_file_witness :
    (handleGet (List.length [7, 8, 9])
        (fun i => some (chunkOf [7, 8, 9] i)) (fun _ => false)
        (some ['b', 'y', 't', 'e', 's', '=', '-', '5'])).status = 206 ∧
      (handleGet (List.length [7, 8, 9])
          (fun i => some (chunkOf [7, 8, 9] i)) (fun _ => false)
          (some ['b', 'y', 't', 'e', 's', '=', '-', '5'])).contentLength =
        ((List.length [7, 8, 9] : Nat) : Int) ∧
      (handleGet (List.length [7, 8, 9])
          (fun i => some (chunkOf [7, 8, 9] i)) (fun _ => false)
          (some ['b', 'y', 't', 'e', 's', '=', '-', '5'])).contentRange =
        some ("bytes " ++ toString (0 : Nat) ++ "-" ++
          toString (((List.length [7, 8, 9] : Nat) : Int) - 1) ++ "/" ++
          toString (List.length [7, 8, 9])) ∧
      (handleGet (List.length [7, 8, 9])
          (fun i => some (chunkOf [7, 8, 9] i)) (fun _ => false)
          (some ['b', 'y', 't', 'e', 's', '=', '-', '5'])).body = [7, 8, 9] :=
  c9_malformed_range_full_file [7, 8, 9] (fun _ => false)
    ['b', 'y', 't', 'e', 's', '=', '-', '5'] (by decide) (by decide)

/-- C10: a Range start is never validated against fileSize: for
bytes=S- with S at or past fileSize the handler still answers 206 with
Content-Range "bytes S-(fileSize-1)/fileSize" and a nonpositive declared
Content-Length fileSize - S, the body loop writes zero bytes, and no
416 is produced. -/
theorem c10_start_unvalidated (fs : Nat) (fetch : Nat → Option (List Nat))
    (cached : Nat → Bool) (cs : List Char) (S : Nat)
    (hparse : scanRange cs = some (S, none)) (hfs : fs ≤ S) :
    (handleGet fs fetch cached (some cs)).status = 206 ∧
      (handleGet fs fetch cached (some cs)).contentRange =
        some ("bytes " ++ toString S ++ "-" ++ toString ((fs : Int) - 1) ++ "/" ++
          toString fs) ∧
      (handleGet fs fetch cached (some cs)).contentLength = (fs : Int) - (S : Int) ∧
      (handleGet fs fetch cached (some cs)).contentLength ≤ 0 ∧
      (handleGet fs fetch cached (some cs)).body = [] ∧
      (handleGet fs fetch cached (some cs)).status ≠ 416 := by
  have hisEmpty : cs.isEmpty = false := scanRange_ne_nil hparse
  have hparsed : parsedOf (some cs) = some (S, none) := by
    simp [parsedOf, hisEmpty, hparse]
  have hstart : startOf (some cs) = S := by simp [startOf, hparsed]
  have hactive : activeOf (some cs) = true := by simp [activeOf, hisEmpty]
  have hend : endOf fs (some cs) = (fs : Int) - 1 := by
    simp only [endOf, hparsed]
    split <;> rfl
  have ht : ((fs : Int) - 1 + 1).toNat = fs := by omega
  have hbody : (handleGet fs fetch cached (some cs)).body = [] := by
    simp only [handleGet]
    rw [hstart, hend, ht]
    exact serveChunks_done _ fs S 0 _ hfs
  refine ⟨by simp [handleGet, hactive], by simp [handleGet, hactive, hstart, hend],
    ?_, ?_, hbody, by simp [handleGet, hactive]⟩
  · simp [handleGet, hstart, hend]
    omega
  · simp [handleGet, hstart, hend]
    omega

theorem c10_start_unvalidated_witness :
    (handleGet 5 (fun _ => none) (fun _ => false)
        (some ['b', 'y', 't', 'e', 's', '=', '9', '-'])).status = 206 ∧
      (handleGet 5 (fun _ => none) (fun _ => false)
          (some ['b', 'y', 't', 'e', 's', '=', '9', '-'])).contentRange =
        some ("bytes " ++ toString (9 : Nat) ++ "-" ++ toString ((5 : Int) - 1) ++ "/" ++
          toString (5 : Nat)) ∧
      (handleGet 5 (fun _ => none) (fun _ => false)
          (some ['b', 'y', 't', 'e', 's', '=', '9', '-'])).contentLength =
        ((5 : Nat) : Int) - ((9 : Nat) : Int) ∧
      (handleGet 5 (fun _ => none) (fun _ => false)
          (some ['b', 'y', 't', 'e', 's', '=', '9', '-'])).contentLength ≤ 0 ∧
      (handleGet 5 (fun _ => none) (fun _ => false)
          (some ['b', 'y', 't', 'e', 's', '=', '9', '-'])).body = [] ∧
      (handleGet 5 (fun _ => none) (fun _ => false)
          (some ['b', 'y', 't', 'e', 's', '=', '9', '-'])).status ≠ 416 :=
  c10_start_unvalidated 5 (fun _ => none) (fun _ => false)
    ['b', 'y', 't', 'e', 's', '=', '9', '-'] 9 (by decide) (by decide)

/-- C8: when the first requested chunk floor(start / CHUNK_SIZE) is not
cached, the handler calls seekTo(firstChunk) on the prefetch engine and
fetches every uncached index of [firstChunk, min(firstChunk +
SEEK_PREBUF_CHUNKS, totalChunks)) before any body byte: in the event
order the seek comes first, then the burst fetches, then the body
writes. -/
theorem c8_seek_burst (fs : Nat) (fetch : Nat → Option (List Nat)) (cached : Nat → Bool)
    (hdr : Option (List Char))
    (hmiss : cached (startOf hdr / CHUNK_SIZE) = false) :
    (handleGet fs fetch cached hdr).seekTarget = some (startOf hdr / CHUNK_SIZE) ∧
      (handleGet fs fetch cached hdr).burst =
        (List.range' (startOf hdr / CHUNK_SIZE)
            (min (startOf hdr / CHUNK_SIZE + SEEK_PREBUF_CHUNKS) (totalChunksOf fs) -
              startOf hdr / CHUNK_SIZE)).filter (fun i => !(cached i)) ∧
      (handleGet fs fetch cached hdr).events =
        SEv.seekEv (startOf hdr / CHUNK_SIZE) ::
          ((handleGet fs fetch cached hdr).burst.map SEv.fetchEv ++
            (handleGet fs fetch cached hdr).body.map SEv.writeEv) := by
  refine ⟨?_, ?_, ?_⟩ <;> simp [handleGet, burstOf, hmiss]

theorem c8_seek_burst_witness :
    (handleGet 1 (fun _ => some [7]) (fun _ => false) none).seekTarget =
        some (startOf none / CHUNK_SIZE) ∧
      (handleGet 1 (fun _ => some [7]) (fun _ => false) none).burst =
        (List.range' (startOf none / CHUNK_SIZE)
            (min (startOf none / CHUNK_SIZE + SEEK_PREBUF_CHUNKS) (totalChunksOf 1) -
              startOf none / CHUNK_SIZE)).filter (fun i => !((fun _ => false) i)) ∧
      (handleGet 1 (fun _ => some [7]) (fun _ => false) none).events =
        SEv.seekEv (startOf none / CHUNK_SIZE) ::
          ((handleGet 1 (fun _ => some [7]) (fun _ => false) none).burst.map SEv.fetchEv ++
            (handleGet 1 (fun _ => some [7]) (fun _ => false) none).body.map
              SEv.writeEv) :=
  c8_seek_burst 1 (fun _ => some [7]) (fun _ => false) none rfl
